import Mathlib

/-
Verification of the illumination-invariant texture recovery repository
(homomorphic_grayscale.py, color_homomorphic.py, utils.py).

The numeric code is embedded shallowly over the real and complex numbers:
numpy arrays become functions out of Fin types, float arithmetic becomes
exact real arithmetic, and the transcendental functions (sqrt, exp, log,
the complex exponential of the Fourier kernels) are the corresponding
Mathlib functions.  Python integer division rows // 2 is Nat division.
-/

noncomputable section

open scoped BigOperators

/-! ## Filter masks (create_butterworth_highpass / lowpass,
create_homomorphic_filter) -/

/-- Squared Euclidean distance from the coordinate (u, v) to the mask
center (rows / 2, cols / 2), over the integers.  The source computes
D = np.sqrt of exactly this quantity. -/
def distSq (rows cols u v : ℕ) : ℤ :=
  ((u : ℤ) - ((rows / 2 : ℕ) : ℤ)) ^ 2 + ((v : ℤ) - ((cols / 2 : ℕ) : ℤ)) ^ 2

/-- Embedding of HomomorphicTextureRecovery.create_butterworth_highpass:
D = sqrt((u-cr)^2 + (v-cc)^2), replaced by 1e-10 when it is 0, and
H[u,v] = 1 / (1 + (D0/D)^(2n)). -/
def create_butterworth_highpass (D0 : ℝ) (n : ℕ) (rows cols u v : ℕ) : ℝ :=
  let D : ℝ := Real.sqrt ((distSq rows cols u v : ℝ))
  let Dsafe : ℝ := if D = 0 then 1e-10 else D
  1 / (1 + (D0 / Dsafe) ^ (2 * n))

/-- Embedding of HomomorphicTextureRecovery.create_butterworth_lowpass:
D = sqrt((u-cr)^2 + (v-cc)^2) (no zero floor here) and
H[u,v] = 1 / (1 + (D/D0)^(2n)). -/
def create_butterworth_lowpass (D0 : ℝ) (n : ℕ) (rows cols u v : ℕ) : ℝ :=
  let D : ℝ := Real.sqrt ((distSq rows cols u v : ℝ))
  1 / (1 + (D / D0) ^ (2 * n))

/-- Embedding of ColorHomomorphicFiltering.create_homomorphic_filter:
H_hp = 1/(1 + (D0/D)^(2n)) with the same 1e-10 floor at the center, and
H[u,v] = (gamma_high - gamma_low) * H_hp + gamma_low. -/
def create_homomorphic_filter (D0 : ℝ) (n : ℕ) (gamma_low gamma_high : ℝ)
    (rows cols u v : ℕ) : ℝ :=
  let D : ℝ := Real.sqrt ((distSq rows cols u v : ℝ))
  let Dsafe : ℝ := if D = 0 then 1e-10 else D
  let H_hp : ℝ := 1 / (1 + (D0 / Dsafe) ^ (2 * n))
  (gamma_high - gamma_low) * H_hp + gamma_low

lemma distSq_nonneg (rows cols u v : ℕ) : 0 ≤ distSq rows cols u v :=
  add_nonneg (sq_nonneg _) (sq_nonneg _)

lemma sqrt_distSq_eq_zero_iff (rows cols u v : ℕ) :
    Real.sqrt ((distSq rows cols u v : ℝ)) = 0 ↔ distSq rows cols u v = 0 := by
  rw [Real.sqrt_eq_zero (by exact_mod_cast distSq_nonneg rows cols u v)]
  exact_mod_cast Iff.rfl

lemma sqrt_distSq_pos (rows cols u v : ℕ) (h : distSq rows cols u v ≠ 0) :
    0 < Real.sqrt ((distSq rows cols u v : ℝ)) := by
  have h0 : (0 : ℝ) ≤ (distSq rows cols u v : ℝ) := by
    exact_mod_cast distSq_nonneg rows cols u v
  have : (0 : ℝ) < (distSq rows cols u v : ℝ) := by
    rcases lt_or_eq_of_le h0 with h' | h'
    · exact h'
    · exact absurd (by exact_mod_cast h'.symm) h
  exact Real.sqrt_pos.mpr this

/-- Highpass plus lowpass off the exact center: the pair is complementary,
with an exact sum of 1. -/
lemma highpass_add_lowpass_off_center (D0 : ℝ) (hD0 : 0 < D0) (n : ℕ)
    (rows cols u v : ℕ) (h : distSq rows cols u v ≠ 0) :
    create_butterworth_highpass D0 n rows cols u v +
      create_butterworth_lowpass D0 n rows cols u v = 1 := by
  unfold create_butterworth_highpass create_butterworth_lowpass
  dsimp only
  have hD : 0 < Real.sqrt ((distSq rows cols u v : ℝ)) := sqrt_distSq_pos rows cols u v h
  rw [if_neg (ne_of_gt hD)]
  set D : ℝ := Real.sqrt ((distSq rows cols u v : ℝ)) with hDdef
  have ht : 0 < (D / D0) ^ (2 * n) := pow_pos (div_pos hD hD0) _
  have hinv : (D0 / D) ^ (2 * n) = ((D / D0) ^ (2 * n))⁻¹ := by
    rw [← inv_pow, inv_div]
  rw [hinv]
  set t : ℝ := (D / D0) ^ (2 * n) with htdef
  have h1 : (0 : ℝ) < 1 + t := by linarith
  have h2 : t ≠ 0 := ne_of_gt ht
  field_simp
  ring

/-- Highpass value at the exact center coordinate: the 1e-10 floor applies. -/
lemma highpass_center (D0 : ℝ) (n : ℕ) (rows cols u v : ℕ)
    (h : distSq rows cols u v = 0) :
    create_butterworth_highpass D0 n rows cols u v =
      1 / (1 + (D0 / 1e-10) ^ (2 * n)) := by
  unfold create_butterworth_highpass
  dsimp only
  rw [if_pos (by rw [sqrt_distSq_eq_zero_iff]; exact h)]

/-- Lowpass value at the exact center coordinate is exactly 1
(the lowpass builder has no zero floor, and 0^(2n) = 0 for n >= 1). -/
lemma lowpass_center (D0 : ℝ) (n : ℕ) (hn : 1 ≤ n) (rows cols u v : ℕ)
    (h : distSq rows cols u v = 0) :
    create_butterworth_lowpass D0 n rows cols u v = 1 := by
  unfold create_butterworth_lowpass
  dsimp only
  rw [(sqrt_distSq_eq_zero_iff rows cols u v).mpr h]
  rw [zero_div, zero_pow (by omega : 2 * n ≠ 0), add_zero, div_one]

/-- C1: the claim asserts highpass + lowpass = 1 at every coordinate for
every D0 > 0 within floating tolerance.  At the center coordinate of a
1x1 mask with D0 = 1e-10 and n = 1, the sum is 3/2: the 1e-10 floor in
the highpass builder makes the pair non-complementary at the center, and
the deviation is far beyond any floating tolerance (here 1/2). -/
theorem C1_counterexample :
    create_butterworth_highpass 1e-10 1 1 1 0 0 +
        create_butterworth_lowpass 1e-10 1 1 1 0 0 = 3 / 2 ∧
      ¬ |create_butterworth_highpass 1e-10 1 1 1 0 0 +
          create_butterworth_lowpass 1e-10 1 1 1 0 0 - 1| ≤ 1 / 100 := by
  have hd : distSq 1 1 0 0 = 0 := by decide
  have h1 : create_butterworth_highpass 1e-10 1 1 1 0 0 = 1 / 2 := by
    rw [highpass_center 1e-10 1 1 1 0 0 hd]
    norm_num
  have h2 : create_butterworth_lowpass 1e-10 1 1 1 0 0 = 1 :=
    lowpass_center 1e-10 1 (by norm_num) 1 1 0 0 hd
  refine ⟨by rw [h1, h2]; norm_num, ?_⟩
  rw [h1, h2, show (1 : ℝ) / 2 + 1 - 1 = 1 / 2 by ring,
    abs_of_pos (by norm_num : (0 : ℝ) < 1 / 2)]
  norm_num

/-- C1 (amended): for every shape, D0 > 0 and n >= 1, the highpass and
lowpass masks sum to exactly 1 at every coordinate whose distance to the
center is nonzero; at the exact center coordinate the sum is
1 + 1/(1 + (D0/1e-10)^(2n)), an excess caused by the 1e-10 floor that is
below floating tolerance only when D0 is large against the floor. -/
theorem C1_amended (D0 : ℝ) (hD0 : 0 < D0) (n : ℕ) (hn : 1 ≤ n)
    (rows cols u v : ℕ) (hu : u < rows) (hv : v < cols) :
    (distSq rows cols u v ≠ 0 →
      create_butterworth_highpass D0 n rows cols u v +
        create_butterworth_lowpass D0 n rows cols u v = 1) ∧
    (distSq rows cols u v = 0 →
      create_butterworth_highpass D0 n rows cols u v +
        create_butterworth_lowpass D0 n rows cols u v =
        1 + 1 / (1 + (D0 / 1e-10) ^ (2 * n))) := by
  constructor
  · intro h
    exact highpass_add_lowpass_off_center D0 hD0 n rows cols u v h
  · intro h
    rw [highpass_center D0 n rows cols u v h, lowpass_center D0 n hn rows cols u v h]
    ring

/-- C1 amended, witnessed at shape 4x4, D0 = 30, n = 2, coordinate (0,0)
(off-center, so the sum is exactly 1). -/
theorem C1_amended_witness :
    ((0 : ℝ) < 30 ∧ (1 : ℕ) ≤ 2 ∧ (0 : ℕ) < 4 ∧ distSq 4 4 0 0 ≠ 0) ∧
      create_butterworth_highpass 30 2 4 4 0 0 +
        create_butterworth_lowpass 30 2 4 4 0 0 = 1 :=
  ⟨⟨by norm_num, by norm_num, by norm_num, by decide⟩,
    (C1_amended 30 (by norm_num) 2 (by norm_num) 4 4 0 0 (by norm_num)
      (by norm_num)).1 (by decide)⟩

/-- A plain Butterworth gain 1/(1 + t) with t an even power is always
inside [0, 1], whatever the sign of the base. -/
lemma butterworth_gain_bounds (x : ℝ) (n : ℕ) :
    0 ≤ 1 / (1 + x ^ (2 * n)) ∧ 1 / (1 + x ^ (2 * n)) ≤ 1 := by
  have ht : 0 ≤ x ^ (2 * n) := by
    rw [mul_comm, pow_mul]
    exact sq_nonneg _
  have h1 : (0 : ℝ) < 1 + x ^ (2 * n) := by linarith
  constructor
  · positivity
  · rw [div_le_one h1]
    linarith

/-- C8: for every shape, D0 > 0, n >= 1, gammaLow <= gammaHigh, every value
of the homomorphic-shaped mask lies in [gammaLow, gammaHigh], and every
value of the plain highpass and lowpass masks lies in [0, 1]. -/
theorem C8_filter_ranges (D0 : ℝ) (hD0 : 0 < D0) (n : ℕ) (hn : 1 ≤ n)
    (gl gh : ℝ) (hg : gl ≤ gh) (rows cols u v : ℕ) (hu : u < rows) (hv : v < cols) :
    (gl ≤ create_homomorphic_filter D0 n gl gh rows cols u v ∧
      create_homomorphic_filter D0 n gl gh rows cols u v ≤ gh) ∧
    (0 ≤ create_butterworth_highpass D0 n rows cols u v ∧
      create_butterworth_highpass D0 n rows cols u v ≤ 1) ∧
    (0 ≤ create_butterworth_lowpass D0 n rows cols u v ∧
      create_butterworth_lowpass D0 n rows cols u v ≤ 1) := by
  unfold create_homomorphic_filter create_butterworth_highpass create_butterworth_lowpass
  dsimp only
  set D : ℝ := Real.sqrt ((distSq rows cols u v : ℝ)) with hD
  set Dsafe : ℝ := if D = 0 then 1e-10 else D with hDs
  obtain ⟨hhp0, hhp1⟩ := butterworth_gain_bounds (D0 / Dsafe) n
  obtain ⟨hlp0, hlp1⟩ := butterworth_gain_bounds (D / D0) n
  refine ⟨⟨?_, ?_⟩, ⟨hhp0, hhp1⟩, hlp0, hlp1⟩
  · nlinarith
  · nlinarith

/-- C8, witnessed at shape 2x2, D0 = 30, n = 2, gammas 0.3 and 2,
coordinate (0, 0). -/
theorem C8_filter_ranges_witness :
    ((0 : ℝ) < 30 ∧ (1 : ℕ) ≤ 2 ∧ (0.3 : ℝ) ≤ 2 ∧ (0 : ℕ) < 2) ∧
    ((0.3 : ℝ) ≤ create_homomorphic_filter 30 2 0.3 2 2 2 0 0 ∧
      create_homomorphic_filter 30 2 0.3 2 2 2 0 0 ≤ 2) ∧
    (0 ≤ create_butterworth_highpass 30 2 2 2 0 0 ∧
      create_butterworth_highpass 30 2 2 2 0 0 ≤ 1) ∧
    (0 ≤ create_butterworth_lowpass 30 2 2 2 0 0 ∧
      create_butterworth_lowpass 30 2 2 2 0 0 ≤ 1) :=
  ⟨⟨by norm_num, by norm_num, by norm_num, by norm_num⟩,
    C8_filter_ranges 30 (by norm_num) 2 (by norm_num) 0.3 2 (by norm_num)
      2 2 0 0 (by norm_num) (by norm_num)⟩

/-! ## Constructors (HomomorphicTextureRecovery.__init__,
ColorHomomorphicFiltering.__init__) -/

/-- Configuration stored by HomomorphicTextureRecovery.__init__:
self.D0 and self.n. -/
structure HomomorphicTextureRecovery where
  D0 : ℝ
  n : ℤ

/-- Embedding of HomomorphicTextureRecovery.__init__: the two parameters
are assigned to the fields; the body contains no validation and no
error path of any kind. -/
def HomomorphicTextureRecovery.init (cutoff_frequency : ℝ)
    (filter_order : ℤ) : HomomorphicTextureRecovery :=
  { D0 := cutoff_frequency, n := filter_order }

/-- Configuration stored by ColorHomomorphicFiltering.__init__. -/
structure ColorHomomorphicFiltering where
  D0 : ℝ
  n : ℤ
  gamma_low : ℝ
  gamma_high : ℝ

/-- Embedding of ColorHomomorphicFiltering.__init__: the four parameters
are assigned to the fields; the body contains no validation and no
error path of any kind. -/
def ColorHomomorphicFiltering.init (cutoff : ℝ) (order : ℤ)
    (gamma_low gamma_high : ℝ) : ColorHomomorphicFiltering :=
  { D0 := cutoff, n := order, gamma_low := gamma_low, gamma_high := gamma_high }

/-- C6: the claim asserts that a non-positive D0, an order below 1, or
gammaLow > gammaHigh makes construction fail with a ParameterError.  The
constructors contain no validation at all: with D0 = -1 and order 0
(both invalid) and with gammaLow = 2 > 1 = gammaHigh, both constructors
return normally and store the invalid values verbatim, so no error of
any kind is raised. -/
theorem C6_counterexample :
    HomomorphicTextureRecovery.init (-1) 0 =
        { D0 := -1, n := 0 } ∧
      ColorHomomorphicFiltering.init (-1) 0 2 1 =
        { D0 := -1, n := 0, gamma_low := 2, gamma_high := 1 } :=
  ⟨rfl, rfl⟩

/-- C6 (amended): the constructors perform no parameter validation:
even when D0 <= 0, the order is below 1, or gammaLow > gammaHigh, both
constructors return normally and store the given values unchanged. -/
theorem C6_amended (D0 : ℝ) (n : ℤ) (gl gh : ℝ)
    (h : D0 ≤ 0 ∨ n < 1 ∨ gh < gl) :
    HomomorphicTextureRecovery.init D0 n = { D0 := D0, n := n } ∧
      ColorHomomorphicFiltering.init D0 n gl gh =
        { D0 := D0, n := n, gamma_low := gl, gamma_high := gh } :=
  ⟨rfl, rfl⟩

/-- C6 amended, witnessed at D0 = -1 (non-positive), order 2, gammas
0.3 and 2. -/
theorem C6_amended_witness :
    ((-1 : ℝ) ≤ 0 ∨ (2 : ℤ) < 1 ∨ (2 : ℝ) < 0.3) ∧
      (HomomorphicTextureRecovery.init (-1) 2 = { D0 := -1, n := 2 } ∧
        ColorHomomorphicFiltering.init (-1) 2 0.3 2 =
          { D0 := -1, n := 2, gamma_low := 0.3, gamma_high := 2 }) :=
  ⟨Or.inl (by norm_num), C6_amended (-1) 2 0.3 2 (Or.inl (by norm_num))⟩

/-! ## Chromaticity split (method2_chromaticity_preserved, lines 52-59) -/

/-- Per-channel normalization rgb = rgb_image / 255 at the start of
method2_chromaticity_preserved. -/
def rgbNorm {M N : ℕ} (img : Fin 3 → Fin M → Fin N → ℝ) (c : Fin 3)
    (x : Fin M) (y : Fin N) : ℝ :=
  img c x y / 255

/-- sum_channels = np.sum(rgb, axis=2) + epsilon with epsilon = 1e-6. -/
def sumChannels {M N : ℕ} (img : Fin 3 → Fin M → Fin N → ℝ)
    (x : Fin M) (y : Fin N) : ℝ :=
  rgbNorm img 0 x y + rgbNorm img 1 x y + rgbNorm img 2 x y + 1e-6

/-- The chromaticity of channel c: rgb[c] / sum_channels
(r_chrom, g_chrom, b_chrom in the source). -/
def chromaticity {M N : ℕ} (img : Fin 3 → Fin M → Fin N → ℝ) (c : Fin 3)
    (x : Fin M) (y : Fin N) : ℝ :=
  rgbNorm img c x y / sumChannels img x y

/-- A 1x1 all-black color image (all channels 0). -/
def blackImg : Fin 3 → Fin 1 → Fin 1 → ℝ := fun _ _ _ => 0

/-- C7: the claim asserts the three chromaticity values sum to 1 at every
pixel.  At an all-black pixel (all three channels 0) each chromaticity is
0 / (0 + 1e-6) = 0, so the sum is 0, not 1. -/
theorem C7_counterexample :
    chromaticity blackImg 0 0 0 + chromaticity blackImg 1 0 0 +
        chromaticity blackImg 2 0 0 = 0 ∧
      chromaticity blackImg 0 0 0 + chromaticity blackImg 1 0 0 +
          chromaticity blackImg 2 0 0 ≠ 1 := by
  have h : chromaticity blackImg 0 0 0 + chromaticity blackImg 1 0 0 +
      chromaticity blackImg 2 0 0 = 0 := by
    unfold chromaticity sumChannels rgbNorm blackImg
    norm_num
  exact ⟨h, by rw [h]; norm_num⟩

/-- C7 (amended): at every pixel with nonnegative channels, the three
chromaticity values sum to s / (s + 1e-6), where s is the pixel's
normalized channel sum; this is strictly below 1, the shortfall being
exactly 1e-6 / (s + 1e-6) (so the sum is close to 1 only where the pixel
is not too dark, and is 0 at an all-black pixel). -/
theorem C7_amended {M N : ℕ} (img : Fin 3 → Fin M → Fin N → ℝ)
    (x : Fin M) (y : Fin N) (h0 : ∀ c, 0 ≤ img c x y) :
    chromaticity img 0 x y + chromaticity img 1 x y + chromaticity img 2 x y =
        (rgbNorm img 0 x y + rgbNorm img 1 x y + rgbNorm img 2 x y) /
          (rgbNorm img 0 x y + rgbNorm img 1 x y + rgbNorm img 2 x y + 1e-6) ∧
      1 - (chromaticity img 0 x y + chromaticity img 1 x y + chromaticity img 2 x y) =
        1e-6 / (rgbNorm img 0 x y + rgbNorm img 1 x y + rgbNorm img 2 x y + 1e-6) := by
  have hs : 0 ≤ rgbNorm img 0 x y + rgbNorm img 1 x y + rgbNorm img 2 x y := by
    unfold rgbNorm
    have h0' := h0 0
    have h1' := h0 1
    have h2' := h0 2
    positivity
  have hden : (0 : ℝ) <
      rgbNorm img 0 x y + rgbNorm img 1 x y + rgbNorm img 2 x y + 1e-6 := by
    norm_num
    linarith
  constructor
  · unfold chromaticity sumChannels
    field_simp
  · unfold chromaticity sumChannels
    field_simp

/-- A 1x1 color image with channel values 255, 51, 0. -/
def orangeImg : Fin 3 → Fin 1 → Fin 1 → ℝ :=
  fun c _ _ => if c = 0 then 255 else if c = 1 then 51 else 0

/-- C7 amended, witnessed at a 1x1 image with channel values 255, 51, 0. -/
theorem C7_amended_witness :
    (∀ c : Fin 3, 0 ≤ orangeImg c 0 0) ∧
      chromaticity orangeImg 0 0 0 + chromaticity orangeImg 1 0 0 +
          chromaticity orangeImg 2 0 0 =
        (rgbNorm orangeImg 0 0 0 + rgbNorm orangeImg 1 0 0 + rgbNorm orangeImg 2 0 0) /
          (rgbNorm orangeImg 0 0 0 + rgbNorm orangeImg 1 0 0 + rgbNorm orangeImg 2 0 0 + 1e-6) :=
  ⟨fun c => by fin_cases c <;> simp [orangeImg],
    (C7_amended orangeImg 0 0 (fun c => by fin_cases c <;> simp [orangeImg])).1⟩

/-! ## Frequency transforms (compute_2d_dft_manual, compute_2d_idft_manual,
compute_2d_fft, compute_2d_ifft) -/

/-- np.exp(1j * angle) for a real angle. -/
def cexp (t : ℝ) : ℂ := Complex.exp (Complex.I * (t : ℂ))

/-- Embedding of HomomorphicTextureRecovery.compute_2d_dft_manual: the
direct double summation F[u,v] = sum over x, y of
image[x,y] * exp(1j * (-2 pi (u x / M + v y / N))). -/
def compute_2d_dft_manual {M N : ℕ} (image : Fin M → Fin N → ℝ)
    (u : Fin M) (v : Fin N) : ℂ :=
  ∑ x : Fin M, ∑ y : Fin N,
    (image x y : ℂ) *
      cexp (-2 * Real.pi * ((u.val : ℝ) * (x.val : ℝ) / (M : ℝ) +
        (v.val : ℝ) * (y.val : ℝ) / (N : ℝ)))

/-- Embedding of HomomorphicTextureRecovery.compute_2d_idft_manual: the
direct double summation with the positive-sign kernel, divided by M * N. -/
def compute_2d_idft_manual {M N : ℕ} (F : Fin M → Fin N → ℂ)
    (x : Fin M) (y : Fin N) : ℂ :=
  (∑ u : Fin M, ∑ v : Fin N,
    F u v *
      cexp (2 * Real.pi * ((u.val : ℝ) * (x.val : ℝ) / (M : ℝ) +
        (v.val : ℝ) * (y.val : ℝ) / (N : ℝ)))) / ((M : ℂ) * (N : ℂ))

/-- Modelled from the spec: np.fft.fft2 is an external library routine whose
code is not part of this repository; per the spec and the numpy
documentation it computes the same 2D transform by a divide-and-conquer
algorithm that applies a one-dimensional transform along each axis.  This is
the one-dimensional length-m building block. -/
def fft1 {m : ℕ} (a : Fin m → ℂ) (u : Fin m) : ℂ :=
  ∑ x : Fin m, a x * cexp (-2 * Real.pi * ((u.val : ℝ) * (x.val : ℝ) / (m : ℝ)))

/-- Modelled from the spec: the one-dimensional inverse building block of
np.fft.ifft2, with the numpy 1/m normalization per axis. -/
def ifft1 {m : ℕ} (a : Fin m → ℂ) (x : Fin m) : ℂ :=
  (∑ u : Fin m, a u * cexp (2 * Real.pi * ((u.val : ℝ) * (x.val : ℝ) / (m : ℝ)))) / (m : ℂ)

/-- Embedding of HomomorphicTextureRecovery.compute_2d_fft, i.e.
np.fft.fft2: the one-dimensional transform applied along each axis. -/
def compute_2d_fft {M N : ℕ} (image : Fin M → Fin N → ℝ)
    (u : Fin M) (v : Fin N) : ℂ :=
  fft1 (fun x => fft1 (fun y => (image x y : ℂ)) v) u

/-- Embedding of HomomorphicTextureRecovery.compute_2d_ifft, i.e.
np.fft.ifft2 (per-axis 1/m normalization gives the overall 1/(M N)). -/
def compute_2d_ifft {M N : ℕ} (F : Fin M → Fin N → ℂ)
    (x : Fin M) (y : Fin N) : ℂ :=
  ifft1 (fun u => ifft1 (fun v => F u v) y) x

lemma cexp_add (a b : ℝ) : cexp (a + b) = cexp a * cexp b := by
  unfold cexp
  rw [← Complex.exp_add]
  push_cast
  ring_nf

lemma cexp_zero : cexp 0 = 1 := by
  unfold cexp
  norm_num

lemma cexp_nat_mul (u : ℕ) (t : ℝ) : cexp ((u : ℝ) * t) = cexp t ^ u := by
  unfold cexp
  rw [← Complex.exp_nat_mul]
  push_cast
  ring_nf

/-- The root-of-unity orthogonality relation behind Fourier inversion:
summing the kernel products over one axis yields m at coinciding sample
points and 0 elsewhere. -/
lemma cexp_orth {m : ℕ} (x x' : Fin m) :
    ∑ u : Fin m,
        cexp (2 * Real.pi * ((u.val : ℝ) * (x.val : ℝ) / (m : ℝ))) *
          cexp (-2 * Real.pi * ((u.val : ℝ) * (x'.val : ℝ) / (m : ℝ))) =
      if x = x' then (m : ℂ) else 0 := by
  have hm : 0 < m := x.pos
  have hm' : (m : ℝ) ≠ 0 := Nat.cast_ne_zero.mpr (by omega)
  set d : ℝ := (x.val : ℝ) - (x'.val : ℝ) with hd
  set t : ℝ := 2 * Real.pi * d / m with htdef
  have hterm : ∀ u : Fin m,
      cexp (2 * Real.pi * ((u.val : ℝ) * (x.val : ℝ) / (m : ℝ))) *
        cexp (-2 * Real.pi * ((u.val : ℝ) * (x'.val : ℝ) / (m : ℝ))) =
      cexp t ^ u.val := by
    intro u
    rw [← cexp_add, ← cexp_nat_mul]
    congr 1
    rw [htdef, hd]
    field_simp
    ring
  rw [Finset.sum_congr rfl (fun u _ => hterm u)]
  by_cases hxx : x = x'
  · subst hxx
    have ht0 : t = 0 := by
      rw [htdef, hd]
      ring
    rw [ht0, cexp_zero]
    simp
  · have hz : cexp t ≠ 1 := by
      intro hz1
      unfold cexp at hz1
      obtain ⟨k, hk⟩ := Complex.exp_eq_one_iff.mp hz1
      have h1 : Complex.I * ((t : ℝ) : ℂ) = Complex.I * ((k : ℂ) * (2 * (Real.pi : ℂ))) := by
        rw [hk]; ring
      have h2 : ((t : ℝ) : ℂ) = ((k : ℂ) * (2 * (Real.pi : ℂ))) :=
        mul_left_cancel₀ Complex.I_ne_zero h1
      have h3 : t = (k : ℝ) * (2 * Real.pi) := by
        have := h2
        push_cast at this
        exact_mod_cast this
      have h4 : d = (k : ℝ) * m := by
        rw [htdef] at h3
        have hπ : Real.pi ≠ 0 := Real.pi_ne_zero
        field_simp at h3
        have h3' : (2 * Real.pi) * d = (2 * Real.pi) * ((k : ℝ) * m) := by
          linear_combination h3
        exact mul_left_cancel₀ (by positivity : (2 * Real.pi : ℝ) ≠ 0) h3'
      have h5 : ((x.val : ℤ) - (x'.val : ℤ)) = k * m := by
        have : ((((x.val : ℤ) - (x'.val : ℤ)) : ℤ) : ℝ) = ((k * m : ℤ) : ℝ) := by
          push_cast
          rw [← hd] at *
          push_cast at h4
          linarith [h4]
        exact_mod_cast this
      have hx1 : (x.val : ℤ) < m := by exact_mod_cast x.isLt
      have hx2 : (x'.val : ℤ) < m := by exact_mod_cast x'.isLt
      have hx3 : (0 : ℤ) ≤ (x.val : ℤ) := Int.ofNat_nonneg _
      have hx4 : (0 : ℤ) ≤ (x'.val : ℤ) := Int.ofNat_nonneg _
      have hne : (x.val : ℤ) - (x'.val : ℤ) ≠ 0 := by
        intro h0
        exact hxx (Fin.ext (by omega))
      rcases lt_trichotomy k 0 with hk0 | hk0 | hk0
      · nlinarith [h5]
      · rw [hk0] at h5
        simp at h5
        omega
      · nlinarith [h5]
    rw [if_neg hxx, Fin.sum_univ_eq_sum_range (fun i => cexp t ^ i) m,
      geom_sum_eq hz m]
    have hzm : cexp t ^ m = 1 := by
      rw [← cexp_nat_mul]
      have harg : (m : ℝ) * t = 2 * Real.pi * d := by
        rw [htdef]
        field_simp
      rw [harg]
      unfold cexp
      have hdz : d = ((x.val : ℤ) - (x'.val : ℤ) : ℤ) := by
        rw [hd]; push_cast; ring
      rw [hdz]
      have : Complex.I * (((2 * Real.pi * (((x.val : ℤ) - (x'.val : ℤ) : ℤ) : ℝ)) : ℝ) : ℂ) =
          (((x.val : ℤ) - (x'.val : ℤ) : ℤ) : ℂ) * (2 * (Real.pi : ℂ) * Complex.I) := by
        push_cast
        ring
      rw [this, Complex.exp_int_mul_two_pi_mul_I]
    rw [hzm]
    simp

/-- One-dimensional Fourier inversion: the inverse transform undoes the
forward transform exactly. -/
lemma ifft1_fft1 {m : ℕ} (a : Fin m → ℂ) (x : Fin m) : ifft1 (fft1 a) x = a x := by
  have hm : 0 < m := x.pos
  have hmc : ((m : ℂ)) ≠ 0 := Nat.cast_ne_zero.mpr (by omega)
  unfold ifft1 fft1
  have h1 : ∑ u : Fin m,
      (∑ x' : Fin m, a x' * cexp (-2 * Real.pi * ((u.val : ℝ) * (x'.val : ℝ) / (m : ℝ)))) *
        cexp (2 * Real.pi * ((u.val : ℝ) * (x.val : ℝ) / (m : ℝ)))
      = ∑ x' : Fin m, a x' *
          ∑ u : Fin m, cexp (2 * Real.pi * ((u.val : ℝ) * (x.val : ℝ) / (m : ℝ))) *
            cexp (-2 * Real.pi * ((u.val : ℝ) * (x'.val : ℝ) / (m : ℝ))) := by
    simp only [Finset.sum_mul, Finset.mul_sum]
    rw [Finset.sum_comm]
    exact Finset.sum_congr rfl fun x' _ =>
      Finset.sum_congr rfl fun u _ => by ring
  rw [h1]
  have h2 : ∑ x' : Fin m, a x' *
      (∑ u : Fin m, cexp (2 * Real.pi * ((u.val : ℝ) * (x.val : ℝ) / (m : ℝ))) *
        cexp (-2 * Real.pi * ((u.val : ℝ) * (x'.val : ℝ) / (m : ℝ))))
      = ∑ x' : Fin m, if x = x' then a x' * m else 0 := by
    refine Finset.sum_congr rfl fun x' _ => ?_
    rw [cexp_orth x x', mul_ite, mul_zero]
  rw [h2, Finset.sum_ite_eq, if_pos (Finset.mem_univ x)]
  field_simp

/-- The inverse 1D transform commutes with the forward 1D transform taken
along the other axis of a 2D array. -/
lemma ifft1_fft1_comm {M N : ℕ} (B : Fin M → Fin N → ℂ) (u : Fin M) (y : Fin N) :
    ifft1 (fun v => fft1 (fun x' => B x' v) u) y =
      fft1 (fun x' => ifft1 (B x') y) u := by
  unfold ifft1 fft1
  have hnum : ∑ v : Fin N,
      (∑ x' : Fin M, B x' v * cexp (-2 * Real.pi * ((u.val : ℝ) * (x'.val : ℝ) / (M : ℝ)))) *
        cexp (2 * Real.pi * ((v.val : ℝ) * (y.val : ℝ) / (N : ℝ)))
      = ∑ x' : Fin M,
          (∑ v : Fin N, B x' v * cexp (2 * Real.pi * ((v.val : ℝ) * (y.val : ℝ) / (N : ℝ)))) *
            cexp (-2 * Real.pi * ((u.val : ℝ) * (x'.val : ℝ) / (M : ℝ))) := by
    simp only [Finset.sum_mul]
    rw [Finset.sum_comm]
    exact Finset.sum_congr rfl fun x' _ =>
      Finset.sum_congr rfl fun v _ => by ring
  rw [hnum, Finset.sum_div]
  exact Finset.sum_congr rfl fun x' _ => (div_mul_eq_mul_div _ _ _).symm

/-- Round trip of the axis-separated (numpy) transforms: ifft2 of fft2 of a
real array recovers the array exactly. -/
lemma ifft_fft {M N : ℕ} (A : Fin M → Fin N → ℝ) (x : Fin M) (y : Fin N) :
    compute_2d_ifft (compute_2d_fft A) x y = ((A x y : ℝ) : ℂ) := by
  unfold compute_2d_ifft compute_2d_fft
  have hstep : (fun u => ifft1 (fun v => fft1 (fun x' => fft1 (fun y' => (A x' y' : ℂ)) v) u) y)
      = fun u => fft1 (fun x' => (A x' y : ℂ)) u := by
    funext u
    rw [ifft1_fft1_comm (fun x' v => fft1 (fun y' => (A x' y' : ℂ)) v) u y]
    have h2 : (fun x' => ifft1 (fft1 (fun y' => (A x' y' : ℂ))) y)
        = fun x' => ((A x' y : ℝ) : ℂ) :=
      funext fun x' => ifft1_fft1 (fun y' => (A x' y' : ℂ)) y
    rw [h2]
  rw [hstep]
  exact ifft1_fft1 (fun x' => ((A x' y : ℝ) : ℂ)) x

/-- The axis-separated transform agrees exactly with the direct double
summation, on arrays of any shape. -/
lemma fft_eq_dft_manual {M N : ℕ} (A : Fin M → Fin N → ℝ) (u : Fin M) (v : Fin N) :
    compute_2d_fft A u v = compute_2d_dft_manual A u v := by
  unfold compute_2d_fft fft1 compute_2d_dft_manual
  refine Finset.sum_congr rfl fun x _ => ?_
  dsimp only
  rw [Finset.sum_mul]
  refine Finset.sum_congr rfl fun y _ => ?_
  have harg : -2 * Real.pi * ((u.val : ℝ) * (x.val : ℝ) / (M : ℝ) +
      (v.val : ℝ) * (y.val : ℝ) / (N : ℝ))
      = -2 * Real.pi * ((v.val : ℝ) * (y.val : ℝ) / (N : ℝ)) +
        -2 * Real.pi * ((u.val : ℝ) * (x.val : ℝ) / (M : ℝ)) := by ring
  rw [harg, cexp_add]
  ring

/-- C5: the axis-separated fast transform and the direct double summation
compute the same spectrum on every input within the size guard
(exactly, in exact arithmetic). -/
theorem C5_fft_agrees_with_manual {M N : ℕ} (hM : M ≤ 64) (hN : N ≤ 64)
    (A : Fin M → Fin N → ℝ) (u : Fin M) (v : Fin N) :
    compute_2d_fft A u v = compute_2d_dft_manual A u v :=
  fft_eq_dft_manual A u v

/-- C5, witnessed at the 1x1 constant array with value 1/2. -/
theorem C5_fft_agrees_with_manual_witness :
    ((1 : ℕ) ≤ 64 ∧ (1 : ℕ) ≤ 64) ∧
      compute_2d_fft (fun _ _ => (1 / 2 : ℝ)) (0 : Fin 1) (0 : Fin 1) =
        compute_2d_dft_manual (fun _ _ => (1 / 2 : ℝ)) (0 : Fin 1) (0 : Fin 1) :=
  ⟨⟨by norm_num, by norm_num⟩,
    C5_fft_agrees_with_manual (by norm_num) (by norm_num) (fun _ _ => (1 / 2 : ℝ)) 0 0⟩

/-- The manual inverse equals the axis-separated (numpy) inverse. -/
lemma idft_manual_eq_ifft {M N : ℕ} (F : Fin M → Fin N → ℂ)
    (x : Fin M) (y : Fin N) :
    compute_2d_idft_manual F x y = compute_2d_ifft F x y := by
  unfold compute_2d_idft_manual compute_2d_ifft ifft1
  have hstep : ∀ u : Fin M,
      (∑ v : Fin N, F u v * cexp (2 * Real.pi * ((v.val : ℝ) * (y.val : ℝ) / (N : ℝ)))) / (N : ℂ) *
          cexp (2 * Real.pi * ((u.val : ℝ) * (x.val : ℝ) / (M : ℝ)))
        = (∑ v : Fin N, F u v *
            cexp (2 * Real.pi * ((u.val : ℝ) * (x.val : ℝ) / (M : ℝ) +
              (v.val : ℝ) * (y.val : ℝ) / (N : ℝ)))) / (N : ℂ) := by
    intro u
    rw [div_mul_eq_mul_div, Finset.sum_mul]
    congr 1
    refine Finset.sum_congr rfl fun v _ => ?_
    have harg : 2 * Real.pi * ((u.val : ℝ) * (x.val : ℝ) / (M : ℝ) +
        (v.val : ℝ) * (y.val : ℝ) / (N : ℝ))
        = 2 * Real.pi * ((v.val : ℝ) * (y.val : ℝ) / (N : ℝ)) +
          2 * Real.pi * ((u.val : ℝ) * (x.val : ℝ) / (M : ℝ)) := by ring
    rw [harg, cexp_add]
    ring
  rw [Finset.sum_congr rfl fun u _ => hstep u, ← Finset.sum_div, div_div]
  rw [mul_comm ((N : ℂ)) ((M : ℂ))]

/-- Round trip of the direct-summation pair: the manual inverse applied to
the manual forward transform recovers the real input exactly. -/
lemma idft_dft_manual {M N : ℕ} (A : Fin M → Fin N → ℝ) (x : Fin M) (y : Fin N) :
    compute_2d_idft_manual (compute_2d_dft_manual A) x y = ((A x y : ℝ) : ℂ) := by
  rw [idft_manual_eq_ifft]
  have h : compute_2d_dft_manual A = compute_2d_fft A := by
    funext u v
    exact (fft_eq_dft_manual A u v).symm
  rw [h]
  exact ifft_fft A x y

/-- C4: on every array within the size guard, the direct-summation inverse
transform applied to the direct-summation forward transform returns the
array exactly (as a complex number with zero imaginary part, so taking the
real part recovers the input; the inverse definition divides the
accumulated double sum by M * N). -/
theorem C4_round_trip {M N : ℕ} (hM : M ≤ 64) (hN : N ≤ 64)
    (A : Fin M → Fin N → ℝ) (x : Fin M) (y : Fin N) :
    compute_2d_idft_manual (compute_2d_dft_manual A) x y = ((A x y : ℝ) : ℂ) :=
  idft_dft_manual A x y

/-- C4, witnessed at the 1x1 constant array with value 1/2. -/
theorem C4_round_trip_witness :
    ((1 : ℕ) ≤ 64 ∧ (1 : ℕ) ≤ 64) ∧
      compute_2d_idft_manual
          (compute_2d_dft_manual (fun _ _ => (1 / 2 : ℝ))) (0 : Fin 1) (0 : Fin 1) =
        ((1 / 2 : ℝ) : ℂ) :=
  ⟨⟨by norm_num, by norm_num⟩,
    C4_round_trip (by norm_num) (by norm_num) (fun _ _ => (1 / 2 : ℝ)) 0 0⟩

/-! ## Spectrum centering (np.fft.fftshift / np.fft.ifftshift) -/

/-- Index map of np.fft.fftshift along one axis of length m: element i of
the shifted array is element (i - floor(m/2)) mod m of the original,
written with natural arithmetic as (i + (m - m/2)) mod m. -/
def shiftIdx (m : ℕ) (i : Fin m) : Fin m :=
  ⟨(i.val + (m - m / 2)) % m, Nat.mod_lt _ i.pos⟩

/-- Index map of np.fft.ifftshift along one axis: element i of the
unshifted array is element (i + floor(m/2)) mod m of the original. -/
def unshiftIdx (m : ℕ) (i : Fin m) : Fin m :=
  ⟨(i.val + m / 2) % m, Nat.mod_lt _ i.pos⟩

/-- Embedding of np.fft.fftshift on a 2D array (both axes shifted). -/
def fftshift {M N : ℕ} (F : Fin M → Fin N → ℂ) (u : Fin M) (v : Fin N) : ℂ :=
  F (shiftIdx M u) (shiftIdx N v)

/-- Embedding of np.fft.ifftshift on a 2D array (both axes unshifted). -/
def ifftshift {M N : ℕ} (F : Fin M → Fin N → ℂ) (u : Fin M) (v : Fin N) : ℂ :=
  F (unshiftIdx M u) (unshiftIdx N v)

lemma shiftIdx_unshiftIdx (m : ℕ) (i : Fin m) : shiftIdx m (unshiftIdx m i) = i := by
  have hm : 0 < m := i.pos
  have hc : m / 2 ≤ m := Nat.div_le_self m 2
  apply Fin.ext
  show ((i.val + m / 2) % m + (m - m / 2)) % m = i.val
  rw [Nat.mod_add_mod]
  have harr : i.val + m / 2 + (m - m / 2) = i.val + m := by omega
  rw [harr, Nat.add_mod_right, Nat.mod_eq_of_lt i.isLt]

lemma unshiftIdx_eq_center_iff (m : ℕ) (i : Fin m) :
    (unshiftIdx m i).val = m / 2 ↔ i.val = 0 := by
  have hm : 0 < m := i.pos
  have hc : m / 2 < m := Nat.div_lt_self hm (by norm_num)
  show (i.val + m / 2) % m = m / 2 ↔ i.val = 0
  constructor
  · intro h
    rcases Nat.lt_or_ge (i.val + m / 2) m with h1 | h1
    · rw [Nat.mod_eq_of_lt h1] at h
      omega
    · have h2 : (i.val + m / 2) % m = i.val + m / 2 - m := by
        rw [Nat.mod_eq_sub_mod h1, Nat.mod_eq_of_lt (by omega)]
      rw [h2] at h
      have := i.isLt
      omega
  · intro h
    rw [h, zero_add, Nat.mod_eq_of_lt hc]

lemma distSq_eq_zero_iff (rows cols u v : ℕ) :
    distSq rows cols u v = 0 ↔ u = rows / 2 ∧ v = cols / 2 := by
  unfold distSq
  have hs1 := sq_nonneg ((u : ℤ) - ((rows / 2 : ℕ) : ℤ))
  have hs2 := sq_nonneg ((v : ℤ) - ((cols / 2 : ℕ) : ℤ))
  constructor
  · intro h
    have e1 : ((u : ℤ) - ((rows / 2 : ℕ) : ℤ)) ^ 2 = 0 := by linarith
    have e2 : ((v : ℤ) - ((cols / 2 : ℕ) : ℤ)) ^ 2 = 0 := by linarith
    have f1 : (u : ℤ) = ((rows / 2 : ℕ) : ℤ) := by
      have := pow_eq_zero_iff (n := 2) (by norm_num) |>.mp e1
      omega
    have f2 : (v : ℤ) = ((cols / 2 : ℕ) : ℤ) := by
      have := pow_eq_zero_iff (n := 2) (by norm_num) |>.mp e2
      omega
    exact ⟨by exact_mod_cast f1, by exact_mod_cast f2⟩
  · rintro ⟨h1, h2⟩
    subst h1
    subst h2
    ring

/-- The unshifted highpass + lowpass mask pair: 1 everywhere except at the
array origin (the pre-shift home of the mask center), where the 1e-10
floor adds the highpass center value. -/
lemma unshifted_mask_sum {M N : ℕ} (D0 : ℝ) (hD0 : 0 < D0) (n : ℕ) (hn : 1 ≤ n)
    (u : Fin M) (v : Fin N) :
    create_butterworth_highpass D0 n M N (unshiftIdx M u).val (unshiftIdx N v).val +
      create_butterworth_lowpass D0 n M N (unshiftIdx M u).val (unshiftIdx N v).val =
    1 + (if u.val = 0 ∧ v.val = 0 then 1 / (1 + (D0 / 1e-10) ^ (2 * n)) else 0) := by
  by_cases h : u.val = 0 ∧ v.val = 0
  · rw [if_pos h]
    have hz : distSq M N (unshiftIdx M u).val (unshiftIdx N v).val = 0 := by
      rw [distSq_eq_zero_iff]
      exact ⟨(unshiftIdx_eq_center_iff M u).mpr h.1, (unshiftIdx_eq_center_iff N v).mpr h.2⟩
    rw [highpass_center D0 n _ _ _ _ hz, lowpass_center D0 n hn _ _ _ _ hz]
    ring
  · rw [if_neg h, add_zero]
    have hz : distSq M N (unshiftIdx M u).val (unshiftIdx N v).val ≠ 0 := by
      intro hz0
      obtain ⟨h1, h2⟩ := (distSq_eq_zero_iff _ _ _ _).mp hz0
      exact h ⟨(unshiftIdx_eq_center_iff M u).mp h1, (unshiftIdx_eq_center_iff N v).mp h2⟩
    exact highpass_add_lowpass_off_center D0 hD0 n _ _ _ _ hz

/-- Linearity of the manual inverse transform over pointwise sums. -/
lemma idft_manual_add {M N : ℕ} (F G : Fin M → Fin N → ℂ) (x : Fin M) (y : Fin N) :
    compute_2d_idft_manual (fun u v => F u v + G u v) x y =
      compute_2d_idft_manual F x y + compute_2d_idft_manual G x y := by
  unfold compute_2d_idft_manual
  rw [div_add_div_same]
  congr 1
  rw [← Finset.sum_add_distrib]
  refine Finset.sum_congr rfl fun u _ => ?_
  rw [← Finset.sum_add_distrib]
  refine Finset.sum_congr rfl fun v _ => ?_
  ring

/-- The manual inverse transform of a spectrum supported at the origin:
only the origin term survives, with unit kernel. -/
lemma idft_manual_point {M N : ℕ} (g : Fin M → Fin N → ℂ) (x : Fin M) (y : Fin N) :
    compute_2d_idft_manual (fun u v => if u.val = 0 ∧ v.val = 0 then g u v else 0) x y
      = g ⟨0, x.pos⟩ ⟨0, y.pos⟩ / ((M : ℂ) * (N : ℂ)) := by
  unfold compute_2d_idft_manual
  congr 1
  rw [Finset.sum_eq_single (⟨0, x.pos⟩ : Fin M)]
  · rw [Finset.sum_eq_single (⟨0, y.pos⟩ : Fin N)]
    · dsimp only
      rw [if_pos ⟨rfl, rfl⟩]
      have harg : 2 * Real.pi *
          (((0 : ℕ) : ℝ) * (x.val : ℝ) / (M : ℝ) +
            ((0 : ℕ) : ℝ) * (y.val : ℝ) / (N : ℝ)) = 0 := by
        norm_num
      rw [harg, cexp_zero, mul_one]
    · intro v _ hv
      dsimp only
      have hcond : ¬((0 : ℕ) = 0 ∧ v.val = 0) := by
        rintro ⟨_, h2⟩
        exact hv (Fin.ext h2)
      rw [if_neg hcond, zero_mul]
    · intro h
      exact absurd (Finset.mem_univ _) h
  · intro u _ hu
    apply Finset.sum_eq_zero
    intro v _
    dsimp only
    have hcond : ¬(u.val = 0 ∧ v.val = 0) := by
      rintro ⟨h1, _⟩
      exact hu (Fin.ext h1)
    rw [if_neg hcond, zero_mul]
  · intro h
    exact absurd (Finset.mem_univ _) h

/-- The manual forward transform at the array origin is the plain sum of
the input samples (the DC coefficient). -/
lemma dft_manual_origin {M N : ℕ} (A : Fin M → Fin N → ℝ) (hM : 0 < M) (hN : 0 < N) :
    compute_2d_dft_manual A ⟨0, hM⟩ ⟨0, hN⟩ =
      (((∑ x : Fin M, ∑ y : Fin N, A x y : ℝ)) : ℂ) := by
  unfold compute_2d_dft_manual
  push_cast
  refine Finset.sum_congr rfl fun x _ => ?_
  refine Finset.sum_congr rfl fun y _ => ?_
  have harg : -2 * Real.pi *
      ((0 : ℝ) * (x.val : ℝ) / (M : ℝ) + (0 : ℝ) * (y.val : ℝ) / (N : ℝ)) = 0 := by
    norm_num
  rw [harg, cexp_zero, mul_one]

/-! ## Grayscale pipeline (process_grayscale_image).  The PIL image loading
is an external collaborator; the pipeline is modelled from the float array
np.array(img, dtype=float) it produces. -/

/-- Steps 1: I = img / 255 and log_I = np.log(I + epsilon), epsilon = 1e-6. -/
def gray_logI {M N : ℕ} (img : Fin M → Fin N → ℝ) (x : Fin M) (y : Fin N) : ℝ :=
  Real.log (img x y / 255 + 1e-6)

/-- Step 2: the forward transform; manual only when the flag is set and
both dimensions are at most 64, np.fft.fft2 otherwise. -/
def gray_F {M N : ℕ} (img : Fin M → Fin N → ℝ) (use_manual_dft : Bool)
    (u : Fin M) (v : Fin N) : ℂ :=
  if use_manual_dft = true ∧ M ≤ 64 ∧ N ≤ 64 then
    compute_2d_dft_manual (gray_logI img) u v
  else compute_2d_fft (gray_logI img) u v

/-- Steps 3-4 for the reflectance path: shift, multiply elementwise by the
highpass mask, unshift. -/
def gray_F_high (D0 : ℝ) (n : ℕ) {M N : ℕ} (img : Fin M → Fin N → ℝ)
    (use_manual_dft : Bool) (u : Fin M) (v : Fin N) : ℂ :=
  ifftshift (fun u' v' =>
    fftshift (gray_F img use_manual_dft) u' v' *
      ((create_butterworth_highpass D0 n M N u'.val v'.val : ℝ) : ℂ)) u v

/-- Steps 3-4 for the illumination path, with the lowpass mask. -/
def gray_F_low (D0 : ℝ) (n : ℕ) {M N : ℕ} (img : Fin M → Fin N → ℝ)
    (use_manual_dft : Bool) (u : Fin M) (v : Fin N) : ℂ :=
  ifftshift (fun u' v' =>
    fftshift (gray_F img use_manual_dft) u' v' *
      ((create_butterworth_lowpass D0 n M N u'.val v'.val : ℝ) : ℂ)) u v

/-- Step 4-5: inverse transform (manual under the same guard) and real
part, giving log_R. -/
def gray_logR (D0 : ℝ) (n : ℕ) {M N : ℕ} (img : Fin M → Fin N → ℝ)
    (use_manual_dft : Bool) (x : Fin M) (y : Fin N) : ℝ :=
  (if use_manual_dft = true ∧ M ≤ 64 ∧ N ≤ 64 then
      compute_2d_idft_manual (gray_F_high D0 n img use_manual_dft) x y
    else compute_2d_ifft (gray_F_high D0 n img use_manual_dft) x y).re

/-- log_L, the illumination counterpart of gray_logR. -/
def gray_logL (D0 : ℝ) (n : ℕ) {M N : ℕ} (img : Fin M → Fin N → ℝ)
    (use_manual_dft : Bool) (x : Fin M) (y : Fin N) : ℝ :=
  (if use_manual_dft = true ∧ M ≤ 64 ∧ N ≤ 64 then
      compute_2d_idft_manual (gray_F_low D0 n img use_manual_dft) x y
    else compute_2d_ifft (gray_F_low D0 n img use_manual_dft) x y).re

/-- Step 5: R = np.exp(log_R), the pre-normalization reflectance. -/
def gray_R (D0 : ℝ) (n : ℕ) {M N : ℕ} (img : Fin M → Fin N → ℝ)
    (use_manual_dft : Bool) (x : Fin M) (y : Fin N) : ℝ :=
  Real.exp (gray_logR D0 n img use_manual_dft x y)

/-- Step 5: L = np.exp(log_L), the pre-normalization illumination. -/
def gray_L (D0 : ℝ) (n : ℕ) {M N : ℕ} (img : Fin M → Fin N → ℝ)
    (use_manual_dft : Bool) (x : Fin M) (y : Fin N) : ℝ :=
  Real.exp (gray_logL D0 n img use_manual_dft x y)

/-- np.min over a 2D array (0 on an empty array, where numpy would error). -/
def matMin {M N : ℕ} (A : Fin M → Fin N → ℝ) : ℝ :=
  if h : (Finset.univ : Finset (Fin M × Fin N)).Nonempty then
    Finset.inf' Finset.univ h (fun p => A p.1 p.2)
  else 0

/-- np.max over a 2D array (0 on an empty array, where numpy would error). -/
def matMax {M N : ℕ} (A : Fin M → Fin N → ℝ) : ℝ :=
  if h : (Finset.univ : Finset (Fin M × Fin N)).Nonempty then
    Finset.sup' Finset.univ h (fun p => A p.1 p.2)
  else 0

/-- Step 7, the min-max display normalization:
(x - min) / (max - min + epsilon) with epsilon = 1e-6. -/
def minMaxNormalize {M N : ℕ} (A : Fin M → Fin N → ℝ) (x : Fin M) (y : Fin N) : ℝ :=
  (A x y - matMin A) / (matMax A - matMin A + 1e-6)

/-- Embedding of HomomorphicTextureRecovery.process_grayscale_image: the
returned pair (R, L), each min-max normalized. -/
def process_grayscale_image (D0 : ℝ) (n : ℕ) {M N : ℕ}
    (img : Fin M → Fin N → ℝ) (use_manual_dft : Bool) :
    (Fin M → Fin N → ℝ) × (Fin M → Fin N → ℝ) :=
  (minMaxNormalize (gray_R D0 n img use_manual_dft),
    minMaxNormalize (gray_L D0 n img use_manual_dft))

/-- C9: on an image exceeding the 64x64 guard in either dimension, the
call with the direct-summation flag set raises no error and returns
exactly the same result as the call with the flag unset: the guard makes
both the forward and the inverse step take the fast-transform branch. -/
theorem C9_flag_ignored_on_large {M N : ℕ} (h : 64 < M ∨ 64 < N)
    (D0 : ℝ) (n : ℕ) (img : Fin M → Fin N → ℝ) :
    process_grayscale_image D0 n img true = process_grayscale_image D0 n img false := by
  have hcond : ∀ b : Bool, ¬(b = true ∧ M ≤ 64 ∧ N ≤ 64) := by
    rintro b ⟨_, h1, h2⟩
    rcases h with h | h <;> omega
  have hF : gray_F img true = gray_F img false := by
    funext u v
    unfold gray_F
    rw [if_neg (hcond true), if_neg (hcond false)]
  have hFh : gray_F_high D0 n img true = gray_F_high D0 n img false := by
    funext u v
    unfold gray_F_high
    rw [hF]
  have hFl : gray_F_low D0 n img true = gray_F_low D0 n img false := by
    funext u v
    unfold gray_F_low
    rw [hF]
  have hlogR : gray_logR D0 n img true = gray_logR D0 n img false := by
    funext x y
    unfold gray_logR
    rw [if_neg (hcond true), if_neg (hcond false), hFh]
  have hlogL : gray_logL D0 n img true = gray_logL D0 n img false := by
    funext x y
    unfold gray_logL
    rw [if_neg (hcond true), if_neg (hcond false), hFl]
  unfold process_grayscale_image gray_R gray_L minMaxNormalize
  rw [hlogR, hlogL]

/-- C9, witnessed on a 65x1 constant image. -/
theorem C9_flag_ignored_on_large_witness :
    ((64 < 65 ∨ 64 < 1)) ∧
      process_grayscale_image 30 2 (fun _ _ => (1 : ℝ)) true =
        process_grayscale_image 30 2 (fun (_ : Fin 65) (_ : Fin 1) => (1 : ℝ)) false :=
  ⟨Or.inl (by norm_num),
    C9_flag_ignored_on_large (Or.inl (by norm_num)) 30 2 (fun _ _ => (1 : ℝ))⟩

lemma univ_nonempty_of_pos {M N : ℕ} (hM : 0 < M) (hN : 0 < N) :
    (Finset.univ : Finset (Fin M × Fin N)).Nonempty :=
  ⟨(⟨0, hM⟩, ⟨0, hN⟩), Finset.mem_univ _⟩

lemma matMin_le {M N : ℕ} (A : Fin M → Fin N → ℝ) (x : Fin M) (y : Fin N) :
    matMin A ≤ A x y := by
  unfold matMin
  rw [dif_pos (univ_nonempty_of_pos x.pos y.pos)]
  exact Finset.inf'_le (fun p : Fin M × Fin N => A p.1 p.2) (Finset.mem_univ (x, y))

lemma le_matMax {M N : ℕ} (A : Fin M → Fin N → ℝ) (x : Fin M) (y : Fin N) :
    A x y ≤ matMax A := by
  unfold matMax
  rw [dif_pos (univ_nonempty_of_pos x.pos y.pos)]
  exact Finset.le_sup' (fun p : Fin M × Fin N => A p.1 p.2) (Finset.mem_univ (x, y))

lemma exists_eq_matMin {M N : ℕ} (hM : 0 < M) (hN : 0 < N)
    (A : Fin M → Fin N → ℝ) : ∃ x y, A x y = matMin A := by
  unfold matMin
  rw [dif_pos (univ_nonempty_of_pos hM hN)]
  obtain ⟨p, _, hp⟩ := Finset.exists_mem_eq_inf' (univ_nonempty_of_pos hM hN)
    (fun p : Fin M × Fin N => A p.1 p.2)
  exact ⟨p.1, p.2, hp.symm⟩

/-- The properties of the min-max normalized array: nonnegative, attains
0, strictly below 1, and identically 0 when the input is constant. -/
lemma minMaxNormalize_props {M N : ℕ} (hM : 0 < M) (hN : 0 < N)
    (A : Fin M → Fin N → ℝ) :
    (∀ x y, 0 ≤ minMaxNormalize A x y) ∧
      (∃ x y, minMaxNormalize A x y = 0) ∧
      (∀ x y, minMaxNormalize A x y < 1) ∧
      ((∀ x y x' y', A x y = A x' y') → ∀ x y, minMaxNormalize A x y = 0) := by
  have hd : 0 < matMax A - matMin A + 1e-6 := by
    obtain ⟨x0, y0, hx0⟩ := exists_eq_matMin hM hN A
    have h1 : matMin A ≤ matMax A := hx0 ▸ le_matMax A x0 y0
    norm_num
    linarith
  refine ⟨?_, ?_, ?_, ?_⟩
  · intro x y
    unfold minMaxNormalize
    have h1 : 0 ≤ A x y - matMin A := by linarith [matMin_le A x y]
    positivity
  · obtain ⟨x0, y0, hx0⟩ := exists_eq_matMin hM hN A
    refine ⟨x0, y0, ?_⟩
    unfold minMaxNormalize
    rw [hx0, sub_self, zero_div]
  · intro x y
    unfold minMaxNormalize
    rw [div_lt_one hd]
    have := le_matMax A x y
    norm_num
    linarith
  · intro hconst x y
    obtain ⟨x0, y0, hx0⟩ := exists_eq_matMin hM hN A
    unfold minMaxNormalize
    rw [← hx0, hconst x y x0 y0, sub_self, zero_div]

/-- C10: for a nonempty input, each returned array is nonnegative with
minimum exactly 0, every value is strictly below 1 (the epsilon in the
min-max denominator), and if the pre-normalization array is constant the
returned array is identically 0. -/
theorem C10_output_range {M N : ℕ} (hM : 0 < M) (hN : 0 < N)
    (D0 : ℝ) (n : ℕ) (img : Fin M → Fin N → ℝ) (flag : Bool) :
    ((∀ x y, 0 ≤ (process_grayscale_image D0 n img flag).1 x y) ∧
      (∃ x y, (process_grayscale_image D0 n img flag).1 x y = 0) ∧
      (∀ x y, (process_grayscale_image D0 n img flag).1 x y < 1) ∧
      ((∀ x y x' y', gray_R D0 n img flag x y = gray_R D0 n img flag x' y') →
        ∀ x y, (process_grayscale_image D0 n img flag).1 x y = 0)) ∧
    ((∀ x y, 0 ≤ (process_grayscale_image D0 n img flag).2 x y) ∧
      (∃ x y, (process_grayscale_image D0 n img flag).2 x y = 0) ∧
      (∀ x y, (process_grayscale_image D0 n img flag).2 x y < 1) ∧
      ((∀ x y x' y', gray_L D0 n img flag x y = gray_L D0 n img flag x' y') →
        ∀ x y, (process_grayscale_image D0 n img flag).2 x y = 0)) :=
  ⟨minMaxNormalize_props hM hN (gray_R D0 n img flag),
    minMaxNormalize_props hM hN (gray_L D0 n img flag)⟩

/-- C10, witnessed on a 1x1 zero image. -/
theorem C10_output_range_witness :
    ((0 : ℕ) < 1 ∧ (0 : ℕ) < 1) ∧
      (∀ x y, 0 ≤ (process_grayscale_image 30 2 (fun (_ : Fin 1) (_ : Fin 1) => (0 : ℝ)) false).1 x y) ∧
      (∃ x y, (process_grayscale_image 30 2 (fun (_ : Fin 1) (_ : Fin 1) => (0 : ℝ)) false).1 x y = 0) :=
  ⟨⟨by norm_num, by norm_num⟩,
    (C10_output_range (by norm_num) (by norm_num) 30 2
      (fun (_ : Fin 1) (_ : Fin 1) => (0 : ℝ)) false).1.1,
    (C10_output_range (by norm_num) (by norm_num) 30 2
      (fun (_ : Fin 1) (_ : Fin 1) => (0 : ℝ)) false).1.2.1⟩

/-! ## Reconstruction identity of the grayscale pipeline -/

/-- Both branches of the forward selection compute the direct-summation
spectrum of the log image. -/
lemma gray_F_eq_manual {M N : ℕ} (img : Fin M → Fin N → ℝ) (flag : Bool) :
    gray_F img flag = compute_2d_dft_manual (gray_logI img) := by
  funext u v
  unfold gray_F
  by_cases h : flag = true ∧ M ≤ 64 ∧ N ≤ 64
  · rw [if_pos h]
  · rw [if_neg h]
    exact fft_eq_dft_manual _ u v

/-- The exact reconstruction identity of the grayscale pipeline: log_R +
log_L is the log image plus the constant hp-center excess times the mean
of the log image. -/
lemma gray_log_sum {M N : ℕ} (D0 : ℝ) (hD0 : 0 < D0) (n : ℕ) (hn : 1 ≤ n)
    (img : Fin M → Fin N → ℝ) (flag : Bool) (x : Fin M) (y : Fin N) :
    gray_logR D0 n img flag x y + gray_logL D0 n img flag x y =
      gray_logI img x y +
        create_butterworth_highpass D0 n M N (M / 2) (N / 2) *
          (∑ x' : Fin M, ∑ y' : Fin N, gray_logI img x' y') / ((M : ℝ) * (N : ℝ)) := by
  have hR : gray_logR D0 n img flag x y =
      (compute_2d_idft_manual (gray_F_high D0 n img flag) x y).re := by
    unfold gray_logR
    by_cases h : flag = true ∧ M ≤ 64 ∧ N ≤ 64
    · rw [if_pos h]
    · rw [if_neg h, ← idft_manual_eq_ifft]
  have hL : gray_logL D0 n img flag x y =
      (compute_2d_idft_manual (gray_F_low D0 n img flag) x y).re := by
    unfold gray_logL
    by_cases h : flag = true ∧ M ≤ 64 ∧ N ≤ 64
    · rw [if_pos h]
    · rw [if_neg h, ← idft_manual_eq_ifft]
  rw [hR, hL, ← Complex.add_re, ← idft_manual_add]
  have hsum : (fun u v => gray_F_high D0 n img flag u v + gray_F_low D0 n img flag u v)
      = fun u v => gray_F img flag u v +
          (if u.val = 0 ∧ v.val = 0 then
            ((1 / (1 + (D0 / 1e-10) ^ (2 * n)) : ℝ) : ℂ) * gray_F img flag u v else 0) := by
    funext u v
    unfold gray_F_high gray_F_low ifftshift fftshift
    dsimp only
    rw [shiftIdx_unshiftIdx, shiftIdx_unshiftIdx, ← mul_add, ← Complex.ofReal_add,
      unshifted_mask_sum D0 hD0 n hn u v]
    by_cases hc : u.val = 0 ∧ v.val = 0
    · rw [if_pos hc, if_pos hc, Complex.ofReal_add, Complex.ofReal_one]
      ring
    · rw [if_neg hc, if_neg hc]
      norm_num
  rw [hsum, idft_manual_add, idft_manual_point, gray_F_eq_manual img flag,
    idft_dft_manual, dft_manual_origin _ x.pos y.pos]
  have hδcenter : create_butterworth_highpass D0 n M N (M / 2) (N / 2) =
      1 / (1 + (D0 / 1e-10) ^ (2 * n)) :=
    highpass_center D0 n M N (M / 2) (N / 2)
      ((distSq_eq_zero_iff M N (M / 2) (N / 2)).mpr ⟨rfl, rfl⟩)
  rw [hδcenter]
  have hcast : ((gray_logI img x y : ℝ) : ℂ) +
      ((1 / (1 + (D0 / 1e-10) ^ (2 * n)) : ℝ) : ℂ) *
        (((∑ x' : Fin M, ∑ y' : Fin N, gray_logI img x' y' : ℝ)) : ℂ) /
        ((M : ℂ) * (N : ℂ)) =
      (((gray_logI img x y +
        (1 / (1 + (D0 / 1e-10) ^ (2 * n))) *
          (∑ x' : Fin M, ∑ y' : Fin N, gray_logI img x' y') / ((M : ℝ) * (N : ℝ)) : ℝ)) : ℂ) := by
    push_cast
    ring
  rw [hcast, Complex.ofReal_re]

/-- C2: the claim asserts log_R + log_L equals log(normalized_input +
epsilon) pointwise, any discrepancy being transform round-trip rounding.
In exact arithmetic the round trip is exact, yet on a 1x1 image with
D0 = 1e-10, n = 1 the sum differs from the log image by half the log
image (about 0.35): the 1e-10 highpass floor adds a nonzero multiple of
the mean of the log image, which is not a rounding artifact. -/
theorem C2_counterexample :
    |gray_logR 1e-10 1 (fun (_ : Fin 1) (_ : Fin 1) => (127.5 : ℝ)) false 0 0 +
        gray_logL 1e-10 1 (fun (_ : Fin 1) (_ : Fin 1) => (127.5 : ℝ)) false 0 0 -
      gray_logI (fun (_ : Fin 1) (_ : Fin 1) => (127.5 : ℝ)) 0 0| > 1 / 6 := by
  have h := gray_log_sum 1e-10 (by norm_num) 1 (by norm_num)
    (fun (_ : Fin 1) (_ : Fin 1) => (127.5 : ℝ)) false 0 0
  have hhp : create_butterworth_highpass 1e-10 1 1 1 (1 / 2) (1 / 2) = 1 / 2 := by
    rw [highpass_center 1e-10 1 1 1 (1 / 2) (1 / 2)
      ((distSq_eq_zero_iff 1 1 (1 / 2) (1 / 2)).mpr ⟨rfl, rfl⟩)]
    norm_num
  rw [hhp] at h
  simp only [Fin.sum_univ_one, Nat.cast_one, mul_one, one_mul, div_one] at h
  set L : ℝ := gray_logI (fun (_ : Fin 1) (_ : Fin 1) => (127.5 : ℝ)) 0 0 with hLdef
  have hLval : L = Real.log 0.500001 := by
    rw [hLdef]
    unfold gray_logI
    norm_num
  have hLneg : L < -(1 / 3) := by
    rw [hLval]
    have he : (2 : ℝ) / 3 ≤ Real.exp (-(1 / 3)) := by
      have := Real.add_one_le_exp (-(1 / 3) : ℝ)
      linarith
    have hlt : (0.500001 : ℝ) < Real.exp (-(1 / 3)) := by linarith [he]
    calc Real.log 0.500001 < Real.log (Real.exp (-(1 / 3))) :=
          Real.log_lt_log (by norm_num) hlt
      _ = -(1 / 3) := Real.log_exp _
  rw [h]
  have harr : L + 1 / 2 * L - L = L / 2 := by ring
  rw [harr, abs_of_neg (by linarith : L / 2 < 0)]
  linarith

/-- C2 (amended): in the grayscale pipeline, before the final min-max
rescaling, log_R + log_L equals log(normalized_input + epsilon) plus the
constant hpCenter * mean(log image), where hpCenter =
1/(1 + (D0/1e-10)^(2n)) is the highpass value at the exact mask center;
the transform round trip itself is exact, and for cutoffs that are not
vanishingly small (e.g. D0 >= 1) the constant is far below floating
tolerance, recovering the claim in practice. -/
theorem C2_amended {M N : ℕ} (D0 : ℝ) (hD0 : 0 < D0) (n : ℕ) (hn : 1 ≤ n)
    (img : Fin M → Fin N → ℝ) (flag : Bool) (x : Fin M) (y : Fin N) :
    gray_logR D0 n img flag x y + gray_logL D0 n img flag x y =
      gray_logI img x y +
        create_butterworth_highpass D0 n M N (M / 2) (N / 2) *
          (∑ x' : Fin M, ∑ y' : Fin N, gray_logI img x' y') / ((M : ℝ) * (N : ℝ)) :=
  gray_log_sum D0 hD0 n hn img flag x y

/-- C2 amended, witnessed on a 1x1 image with D0 = 30, n = 2. -/
theorem C2_amended_witness :
    ((0 : ℝ) < 30 ∧ (1 : ℕ) ≤ 2) ∧
      gray_logR 30 2 (fun (_ : Fin 1) (_ : Fin 1) => (51 : ℝ)) false 0 0 +
          gray_logL 30 2 (fun (_ : Fin 1) (_ : Fin 1) => (51 : ℝ)) false 0 0 =
        gray_logI (fun (_ : Fin 1) (_ : Fin 1) => (51 : ℝ)) 0 0 +
          create_butterworth_highpass 30 2 1 1 (1 / 2) (1 / 2) *
            (∑ x' : Fin 1, ∑ y' : Fin 1,
              gray_logI (fun (_ : Fin 1) (_ : Fin 1) => (51 : ℝ)) x' y') /
              ((1 : ℝ) * (1 : ℝ)) := by
  refine ⟨⟨by norm_num, by norm_num⟩, ?_⟩
  have h := C2_amended 30 (by norm_num) 2 (by norm_num)
    (fun (_ : Fin 1) (_ : Fin 1) => (51 : ℝ)) false 0 0
  simpa using h

/-! ## Color pipeline (method2_chromaticity_preserved, normalize_image) -/

/-- intensity = (rgb[0] + rgb[1] + rgb[2]) / 3. -/
def method2_intensity {M N : ℕ} (img : Fin 3 → Fin M → Fin N → ℝ)
    (x : Fin M) (y : Fin N) : ℝ :=
  (rgbNorm img 0 x y + rgbNorm img 1 x y + rgbNorm img 2 x y) / 3

/-- log_I = np.log(intensity + epsilon). -/
def method2_logI {M N : ℕ} (img : Fin 3 → Fin M → Fin N → ℝ)
    (x : Fin M) (y : Fin N) : ℝ :=
  Real.log (method2_intensity img x y + 1e-6)

/-- intensity_corrected: log intensity is transformed, shifted, multiplied
by the shaped homomorphic filter, unshifted, inverse transformed, real
part taken and exponentiated. -/
def method2_intensity_corrected (D0 : ℝ) (n : ℕ) (gl gh : ℝ) {M N : ℕ}
    (img : Fin 3 → Fin M → Fin N → ℝ) (x : Fin M) (y : Fin N) : ℝ :=
  Real.exp ((compute_2d_ifft
    (ifftshift (fun u v => fftshift (compute_2d_fft (method2_logI img)) u v *
      ((create_homomorphic_filter D0 n gl gh M N u.val v.val : ℝ) : ℂ))) x y).re)

/-- result[:,:,c] = chrom_c * intensity_corrected * 3, before the final
normalization. -/
def method2_raw (D0 : ℝ) (n : ℕ) (gl gh : ℝ) {M N : ℕ}
    (img : Fin 3 → Fin M → Fin N → ℝ) (c : Fin 3) (x : Fin M) (y : Fin N) : ℝ :=
  chromaticity img c x y * method2_intensity_corrected D0 n gl gh img x y * 3

/-- np.clip(img, 0, None) on a 3-channel array. -/
def clip0 {M N : ℕ} (A : Fin 3 → Fin M → Fin N → ℝ) (c : Fin 3)
    (x : Fin M) (y : Fin N) : ℝ :=
  max 0 (A c x y)

/-- The values of a 3-channel array as a flat list (row-major, channel
innermost) -- the multiset np.percentile ranks. -/
def channelsList {M N : ℕ} (A : Fin 3 → Fin M → Fin N → ℝ) : List ℝ :=
  (List.finRange M).flatMap fun x =>
    (List.finRange N).flatMap fun y =>
      (List.finRange 3).map fun c => A c x y

/-- Modelled from the spec: np.percentile is an external numpy routine not
in this repository; per the numpy documentation its default linear
interpolation sorts the values into s and returns
s[i] + (h - i) * (s[i+1] - s[i]) with h = (q/100) * (len - 1), i = floor h
(the upper sample falling back to s[i] at the top end). -/
def percentileLinear (q : ℝ) (l : List ℝ) : ℝ :=
  (l.insertionSort (· ≤ ·)).getD (⌊q / 100 * ((l.length : ℝ) - 1)⌋.toNat) 0 +
    (q / 100 * ((l.length : ℝ) - 1) - ((⌊q / 100 * ((l.length : ℝ) - 1)⌋.toNat : ℕ) : ℝ)) *
      ((l.insertionSort (· ≤ ·)).getD (⌊q / 100 * ((l.length : ℝ) - 1)⌋.toNat + 1)
          ((l.insertionSort (· ≤ ·)).getD (⌊q / 100 * ((l.length : ℝ) - 1)⌋.toNat) 0) -
        (l.insertionSort (· ≤ ·)).getD (⌊q / 100 * ((l.length : ℝ) - 1)⌋.toNat) 0)

/-- Embedding of ColorHomomorphicFiltering.normalize_image on a 3-channel
array: clip negatives to 0, divide by the 99th percentile of all values
plus 1e-6, clip to [0, 1]. -/
def normalize_image {M N : ℕ} (A : Fin 3 → Fin M → Fin N → ℝ) (c : Fin 3)
    (x : Fin M) (y : Fin N) : ℝ :=
  min 1 (max 0 (clip0 A c x y /
    (percentileLinear 99 (channelsList (clip0 A)) + 1e-6)))

/-- The scaled (pre-final-clip) value inside normalize_image, as applied
to the method-2 result. -/
def method2_scaled (D0 : ℝ) (n : ℕ) (gl gh : ℝ) {M N : ℕ}
    (img : Fin 3 → Fin M → Fin N → ℝ) (c : Fin 3) (x : Fin M) (y : Fin N) : ℝ :=
  clip0 (method2_raw D0 n gl gh img) c x y /
    (percentileLinear 99 (channelsList (clip0 (method2_raw D0 n gl gh img))) + 1e-6)

/-- Embedding of ColorHomomorphicFiltering.method2_chromaticity_preserved:
the raw chromaticity-times-corrected-intensity channels fed through
normalize_image. -/
def method2_chromaticity_preserved (D0 : ℝ) (n : ℕ) (gl gh : ℝ) {M N : ℕ}
    (img : Fin 3 → Fin M → Fin N → ℝ) (c : Fin 3) (x : Fin M) (y : Fin N) : ℝ :=
  normalize_image (method2_raw D0 n gl gh img) c x y

/-- The linear-interpolation percentile of a list of nonnegative values is
nonnegative. -/
lemma percentileLinear_nonneg (l : List ℝ) (hl : ∀ a ∈ l, 0 ≤ a) :
    0 ≤ percentileLinear 99 l := by
  unfold percentileLinear
  set s := l.insertionSort (· ≤ ·) with hs
  have hperm : s.Perm l := List.perm_insertionSort _ l
  have hsorted : s.Sorted (· ≤ ·) := List.sorted_insertionSort _ l
  have hmem : ∀ a ∈ s, 0 ≤ a := fun a ha => hl a (hperm.mem_iff.mp ha)
  set h : ℝ := 99 / 100 * ((l.length : ℝ) - 1) with hh
  set i : ℕ := ⌊h⌋.toNat with hi
  rcases Nat.lt_or_ge i s.length with hilt | hige
  · have hlen1 : 1 ≤ l.length := by
      have := hperm.length_eq
      omega
    have hh0 : 0 ≤ h := by
      rw [hh]
      have : (1 : ℝ) ≤ (l.length : ℝ) := by exact_mod_cast hlen1
      nlinarith
    have hγ : 0 ≤ h - (i : ℝ) := by
      have h1 : ((⌊h⌋.toNat : ℤ) : ℝ) ≤ h := by
        rw [Int.toNat_of_nonneg (Int.floor_nonneg.mpr hh0)]
        exact Int.floor_le h
      rw [hi]
      push_cast at h1 ⊢
      linarith
    have hsi : 0 ≤ s.getD i 0 := by
      rw [List.getD_eq_getElem s 0 hilt]
      exact hmem _ (List.getElem_mem hilt)
    rcases Nat.lt_or_ge (i + 1) s.length with hi1 | hi1
    · have hsi1 : s.getD i 0 ≤ s.getD (i + 1) (s.getD i 0) := by
        rw [List.getD_eq_getElem s 0 hilt, List.getD_eq_getElem s _ hi1]
        exact hsorted.rel_get_of_lt (by exact_mod_cast Nat.lt_succ_self i)
      have hprod : 0 ≤ (h - (i : ℝ)) * (s.getD (i + 1) (s.getD i 0) - s.getD i 0) :=
        mul_nonneg hγ (by linarith)
      linarith
    · rw [List.getD_eq_default s _ hi1, sub_self, mul_zero, add_zero]
      exact hsi
  · rw [List.getD_eq_default s 0 hige, List.getD_eq_default s _ (by omega)]
    rw [sub_self, mul_zero, add_zero]

/-- C3 (amended): the per-pixel chromaticity recombination preserves the
channel ratios exactly through the percentile scaling, provided the final
clip to [0, 1] does not bind on either of the two channels compared. -/
theorem C3_amended {M N : ℕ} (D0 : ℝ) (n : ℕ) (gl gh : ℝ)
    (img : Fin 3 → Fin M → Fin N → ℝ) (i j : Fin 3) (x : Fin M) (y : Fin N)
    (hnn : ∀ c x' y', 0 ≤ img c x' y')
    (hj : 0 < img j x y)
    (hi1 : method2_scaled D0 n gl gh img i x y ≤ 1)
    (hj1 : method2_scaled D0 n gl gh img j x y ≤ 1) :
    method2_chromaticity_preserved D0 n gl gh img i x y /
      method2_chromaticity_preserved D0 n gl gh img j x y =
      img i x y / img j x y := by
  have hic : 0 < method2_intensity_corrected D0 n gl gh img x y := Real.exp_pos _
  have hsumpos : 0 < sumChannels img x y := by
    unfold sumChannels rgbNorm
    have e0 : 0 ≤ img 0 x y / 255 := div_nonneg (hnn 0 x y) (by norm_num)
    have e1 : 0 ≤ img 1 x y / 255 := div_nonneg (hnn 1 x y) (by norm_num)
    have e2 : 0 ≤ img 2 x y / 255 := div_nonneg (hnn 2 x y) (by norm_num)
    have he : (0 : ℝ) < 1e-6 := by norm_num
    linarith
  have hraw_nonneg : ∀ c, 0 ≤ method2_raw D0 n gl gh img c x y := by
    intro c
    unfold method2_raw chromaticity rgbNorm
    have hr : 0 ≤ img c x y / 255 := div_nonneg (hnn c x y) (by norm_num)
    exact mul_nonneg (mul_nonneg (div_nonneg hr hsumpos.le) hic.le) (by norm_num)
  have hrawj : 0 < method2_raw D0 n gl gh img j x y := by
    unfold method2_raw chromaticity rgbNorm
    have hrj : 0 < img j x y / 255 := div_pos hj (by norm_num)
    exact mul_pos (mul_pos (div_pos hrj hsumpos) hic) (by norm_num)
  have hclip : ∀ c, clip0 (method2_raw D0 n gl gh img) c x y =
      method2_raw D0 n gl gh img c x y := fun c => max_eq_right (hraw_nonneg c)
  have hpnn : 0 ≤ percentileLinear 99 (channelsList (clip0 (method2_raw D0 n gl gh img))) := by
    apply percentileLinear_nonneg
    intro a ha
    unfold channelsList at ha
    simp only [List.mem_flatMap, List.mem_map] at ha
    obtain ⟨x', _, y', _, c, _, rfl⟩ := ha
    exact le_max_left 0 _
  have hdenom : 0 < percentileLinear 99 (channelsList (clip0 (method2_raw D0 n gl gh img))) + 1e-6 := by
    have he : (0 : ℝ) < 1e-6 := by norm_num
    linarith
  have hsc_i_nonneg : 0 ≤ method2_scaled D0 n gl gh img i x y :=
    div_nonneg (le_max_left 0 _) hdenom.le
  have hsc_j_pos : 0 < method2_scaled D0 n gl gh img j x y := by
    unfold method2_scaled
    rw [hclip j]
    exact div_pos hrawj hdenom
  have hout : ∀ c, 0 ≤ method2_scaled D0 n gl gh img c x y →
      method2_scaled D0 n gl gh img c x y ≤ 1 →
      method2_chromaticity_preserved D0 n gl gh img c x y =
        method2_scaled D0 n gl gh img c x y := by
    intro c h0 h1'
    show min 1 (max 0 (method2_scaled D0 n gl gh img c x y)) =
      method2_scaled D0 n gl gh img c x y
    rw [max_eq_right h0, min_eq_right h1']
  rw [hout i hsc_i_nonneg hi1, hout j hsc_j_pos.le hj1]
  unfold method2_scaled
  rw [hclip i, hclip j, div_div_div_cancel_right₀ (ne_of_gt hdenom)]
  unfold method2_raw
  rw [mul_div_mul_right _ _ (by norm_num : (3 : ℝ) ≠ 0),
    mul_div_mul_right _ _ (ne_of_gt hic)]
  unfold chromaticity
  rw [div_div_div_cancel_right₀ (ne_of_gt hsumpos)]
  unfold rgbNorm
  rw [div_div_div_cancel_right₀ (by norm_num : (255 : ℝ) ≠ 0)]

/-! ## Concrete evaluation of the color pipeline on 1x1 images -/

lemma fft_one_one (A : Fin 1 → Fin 1 → ℝ) (u v : Fin 1) :
    compute_2d_fft A u v = ((A 0 0 : ℝ) : ℂ) := by
  have hu : u = 0 := Subsingleton.elim u 0
  have hv : v = 0 := Subsingleton.elim v 0
  subst hu hv
  unfold compute_2d_fft fft1
  simp only [Fin.sum_univ_one, Fin.val_zero]
  norm_num [cexp_zero]

lemma ifft_one_one (F : Fin 1 → Fin 1 → ℂ) (x y : Fin 1) :
    compute_2d_ifft F x y = F 0 0 := by
  have hx : x = 0 := Subsingleton.elim x 0
  have hy : y = 0 := Subsingleton.elim y 0
  subst hx hy
  unfold compute_2d_ifft ifft1
  simp only [Fin.sum_univ_one, Fin.val_zero]
  norm_num [cexp_zero]

/-- When gammaLow = gammaHigh = g, the shaped filter is the constant g. -/
lemma homomorphic_filter_const (D0 : ℝ) (n : ℕ) (g : ℝ) (rows cols u v : ℕ) :
    create_homomorphic_filter D0 n g g rows cols u v = g := by
  unfold create_homomorphic_filter
  dsimp only
  ring

/-- On a 1x1 image with a unit filter (gammaLow = gammaHigh = 1), the
corrected intensity is exactly intensity + epsilon: the 1-point transform
round trip is the identity and exp undoes log. -/
lemma method2_ic_one_one (D0 : ℝ) (n : ℕ) (img : Fin 3 → Fin 1 → Fin 1 → ℝ)
    (hpos : 0 < method2_intensity img 0 0 + 1e-6) :
    method2_intensity_corrected D0 n 1 1 img 0 0 = method2_intensity img 0 0 + 1e-6 := by
  unfold method2_intensity_corrected
  rw [ifft_one_one]
  unfold ifftshift fftshift
  dsimp only
  rw [fft_one_one, homomorphic_filter_const, Complex.ofReal_one, mul_one,
    Complex.ofReal_re]
  unfold method2_logI
  exact Real.exp_log hpos

lemma channelsList_one_one (A : Fin 3 → Fin 1 → Fin 1 → ℝ) :
    channelsList A = [A 0 0 0, A 1 0 0, A 2 0 0] := rfl

lemma method2_out_one_one (D0 : ℝ) (n : ℕ) (gl gh : ℝ)
    (img : Fin 3 → Fin 1 → Fin 1 → ℝ) (c : Fin 3) :
    method2_chromaticity_preserved D0 n gl gh img c 0 0 =
      min 1 (max 0 (clip0 (method2_raw D0 n gl gh img) c 0 0 /
        (percentileLinear 99
          [clip0 (method2_raw D0 n gl gh img) 0 0 0,
            clip0 (method2_raw D0 n gl gh img) 1 0 0,
            clip0 (method2_raw D0 n gl gh img) 2 0 0] + 1e-6))) := by
  unfold method2_chromaticity_preserved normalize_image
  rw [channelsList_one_one]

lemma method2_scaled_one_one (D0 : ℝ) (n : ℕ) (gl gh : ℝ)
    (img : Fin 3 → Fin 1 → Fin 1 → ℝ) (c : Fin 3) :
    method2_scaled D0 n gl gh img c 0 0 =
      clip0 (method2_raw D0 n gl gh img) c 0 0 /
        (percentileLinear 99
          [clip0 (method2_raw D0 n gl gh img) 0 0 0,
            clip0 (method2_raw D0 n gl gh img) 1 0 0,
            clip0 (method2_raw D0 n gl gh img) 2 0 0] + 1e-6) := by
  unfold method2_scaled
  rw [channelsList_one_one]

/-- The 99th linear-interpolation percentile of three values listed in
strictly descending order. -/
lemma percentileLinear99_three_sorted (a b c : ℝ) (h1 : ¬ b ≤ c) (h2 : ¬ a ≤ c)
    (h3 : ¬ a ≤ b) :
    percentileLinear 99 [a, b, c] = b + 49 / 50 * (a - b) := by
  unfold percentileLinear
  have hsort : (([a, b, c] : List ℝ).insertionSort (· ≤ ·)) = [c, b, a] := by
    simp [List.insertionSort, List.orderedInsert, h1, h2, h3]
  rw [hsort]
  have hlen : ((([a, b, c] : List ℝ).length : ℕ) : ℝ) = 3 := by norm_num
  rw [hlen]
  have hfloor : ⌊(99 : ℝ) / 100 * ((3 : ℝ) - 1)⌋ = 1 := by
    rw [Int.floor_eq_iff]
    norm_num
  rw [hfloor]
  norm_num [List.getD_cons_succ, List.getD_cons_zero]

/-- The 99th linear-interpolation percentile of three equal values. -/
lemma percentileLinear99_three_const (V : ℝ) : percentileLinear 99 [V, V, V] = V := by
  unfold percentileLinear
  have hsort : (([V, V, V] : List ℝ).insertionSort (· ≤ ·)) = [V, V, V] := by
    simp [List.insertionSort, List.orderedInsert]
  rw [hsort]
  have hlen : ((([V, V, V] : List ℝ).length : ℕ) : ℝ) = 3 := by norm_num
  rw [hlen]
  have hfloor : ⌊(99 : ℝ) / 100 * ((3 : ℝ) - 1)⌋ = 1 := by
    rw [Int.floor_eq_iff]
    norm_num
  rw [hfloor]
  norm_num [List.getD_cons_succ, List.getD_cons_zero]

/-- A constant mid-gray 1x1 color image. -/
def grayImg : Fin 3 → Fin 1 → Fin 1 → ℝ := fun _ _ _ => 127.5

/-- C3: the claim asserts output channel ratios equal input channel
ratios at every pixel including after the final percentile normalization.
On a 1x1 image with channels (255, 51, 0) and a unit shaped filter
(gammaLow = gammaHigh = 1), division by the interpolated 99th percentile
pushes the red channel above 1 and the final clip to [0,1] truncates it,
changing the red/green ratio from 5 to about 4.92; the deviation exceeds
1/20, far beyond tolerance. -/
theorem C3_counterexample :
    |method2_chromaticity_preserved 30 2 1 1 orangeImg 0 0 0 /
        method2_chromaticity_preserved 30 2 1 1 orangeImg 1 0 0 -
      orangeImg 0 0 0 / orangeImg 1 0 0| > 1 / 20 := by
  have h20 : (2 : Fin 3) ≠ 0 := by decide
  have h21 : (2 : Fin 3) ≠ 1 := by decide
  have hpos : 0 < method2_intensity orangeImg 0 0 + 1e-6 := by
    unfold method2_intensity rgbNorm
    norm_num [orangeImg, h20, h21]
  have hic := method2_ic_one_one 30 2 orangeImg hpos
  have hint : method2_intensity orangeImg 0 0 = 2 / 5 := by
    unfold method2_intensity rgbNorm
    norm_num [orangeImg, h20, h21]
  have hraw0 : method2_raw 30 2 1 1 orangeImg 0 0 0 = 1200003 / 1200001 := by
    unfold method2_raw chromaticity sumChannels rgbNorm
    rw [hic, hint]
    norm_num [orangeImg, h20, h21]
  have hraw1 : method2_raw 30 2 1 1 orangeImg 1 0 0 = 1200003 / 6000005 := by
    unfold method2_raw chromaticity sumChannels rgbNorm
    rw [hic, hint]
    norm_num [orangeImg, h20, h21]
  have hraw2 : method2_raw 30 2 1 1 orangeImg 2 0 0 = 0 := by
    unfold method2_raw chromaticity sumChannels rgbNorm
    rw [hic, hint]
    norm_num [orangeImg, h20, h21]
  have hc0 : clip0 (method2_raw 30 2 1 1 orangeImg) 0 0 0 = 1200003 / 1200001 := by
    unfold clip0
    rw [hraw0, max_eq_right (by norm_num : (0 : ℝ) ≤ 1200003 / 1200001)]
  have hc1 : clip0 (method2_raw 30 2 1 1 orangeImg) 1 0 0 = 1200003 / 6000005 := by
    unfold clip0
    rw [hraw1, max_eq_right (by norm_num : (0 : ℝ) ≤ 1200003 / 6000005)]
  have hc2 : clip0 (method2_raw 30 2 1 1 orangeImg) 2 0 0 = 0 := by
    unfold clip0
    rw [hraw2, max_self]
  have hp : percentileLinear 99
      [clip0 (method2_raw 30 2 1 1 orangeImg) 0 0 0,
        clip0 (method2_raw 30 2 1 1 orangeImg) 1 0 0,
        clip0 (method2_raw 30 2 1 1 orangeImg) 2 0 0] =
      1200003 / 6000005 + 49 / 50 * (1200003 / 1200001 - 1200003 / 6000005) := by
    rw [hc0, hc1, hc2]
    exact percentileLinear99_three_sorted _ _ _ (by norm_num) (by norm_num) (by norm_num)
  have hout0 : method2_chromaticity_preserved 30 2 1 1 orangeImg 0 0 0 = 1 := by
    rw [method2_out_one_one, hp, hc0,
      max_eq_right (by norm_num : (0 : ℝ) ≤ 1200003 / 1200001 /
        (1200003 / 6000005 + 49 / 50 * (1200003 / 1200001 - 1200003 / 6000005) + 1e-6)),
      min_eq_left (by norm_num : (1 : ℝ) ≤ 1200003 / 1200001 /
        (1200003 / 6000005 + 49 / 50 * (1200003 / 1200001 - 1200003 / 6000005) + 1e-6))]
  have hout1 : method2_chromaticity_preserved 30 2 1 1 orangeImg 1 0 0 =
      1200003 / 6000005 /
        (1200003 / 6000005 + 49 / 50 * (1200003 / 1200001 - 1200003 / 6000005) + 1e-6) := by
    rw [method2_out_one_one, hp, hc1,
      max_eq_right (by norm_num : (0 : ℝ) ≤ 1200003 / 6000005 /
        (1200003 / 6000005 + 49 / 50 * (1200003 / 1200001 - 1200003 / 6000005) + 1e-6)),
      min_eq_right (by norm_num : 1200003 / 6000005 /
        (1200003 / 6000005 + 49 / 50 * (1200003 / 1200001 - 1200003 / 6000005) + 1e-6) ≤ (1 : ℝ))]
  rw [hout0, hout1]
  have him : orangeImg 0 0 0 / orangeImg 1 0 0 = 5 := by
    norm_num [orangeImg, h20, h21]
  rw [him, abs_of_neg (by norm_num)]
  norm_num

/-- C3 amended, witnessed on a constant mid-gray 1x1 image with a unit
shaped filter: no channel is clipped and the red/green ratio is
preserved exactly. -/
theorem C3_amended_witness :
    ((∀ c (x' : Fin 1) (y' : Fin 1), 0 ≤ grayImg c x' y') ∧ 0 < grayImg 1 0 0 ∧
      method2_scaled 30 2 1 1 grayImg 0 0 0 ≤ 1 ∧
      method2_scaled 30 2 1 1 grayImg 1 0 0 ≤ 1) ∧
    method2_chromaticity_preserved 30 2 1 1 grayImg 0 0 0 /
        method2_chromaticity_preserved 30 2 1 1 grayImg 1 0 0 =
      grayImg 0 0 0 / grayImg 1 0 0 := by
  have hVc : ∀ c : Fin 3, clip0 (method2_raw 30 2 1 1 grayImg) c 0 0 =
      clip0 (method2_raw 30 2 1 1 grayImg) 0 0 0 := fun c => rfl
  have hsc : ∀ c : Fin 3, method2_scaled 30 2 1 1 grayImg c 0 0 ≤ 1 := by
    intro c
    rw [method2_scaled_one_one, hVc c, hVc 1, hVc 2, percentileLinear99_three_const]
    have hV0 : 0 ≤ clip0 (method2_raw 30 2 1 1 grayImg) 0 0 0 := le_max_left 0 _
    have he : (0 : ℝ) < 1e-6 := by norm_num
    rw [div_le_one (by linarith)]
    linarith
  have hnn : ∀ c (x' : Fin 1) (y' : Fin 1), 0 ≤ grayImg c x' y' := by
    intro c x' y'
    unfold grayImg
    norm_num
  have hj : 0 < grayImg 1 0 0 := by
    unfold grayImg
    norm_num
  exact ⟨⟨hnn, hj, hsc 0, hsc 1⟩,
    C3_amended 30 2 1 1 grayImg 0 1 0 0 hnn hj (hsc 0) (hsc 1)⟩

end
